import Mathlib

/-!
Verification development for ZeroSecondChess (premove_match.py).

The script drives a premove-only chess match between two UCI engines:
each side picks a move before seeing the opponent's reply; an illegal
premove falls back to a depth-1 query; a side that cannot move even at
fallback depth resigns.  The chess rules themselves live in the external
python-chess library, which is modelled here abstractly by a `ChessLib`
structure of oracles.  A board is identified with its move stack (the
list of moves pushed since `chess.Board()`), which is faithful because
the script creates one fresh board and only ever pushes to it.

Exceptions are modelled with `Except Unit`: a Lean value `.error ()`
marks a point where the Python code would raise an uncaught exception.
Engine processes are modelled as pure functions from (position, depth)
to an `EngineAnswer`, which either returns an optional move (the
`PlayResult` of `engine.play`) or raises (`.exn`).
-/

set_option autoImplicit false

namespace ZeroSecondChess

/-- Configuration constant `MAX_MOVES = 200` from the source. -/
def MAX_MOVES : Nat := 200

/-- Configuration constant `PREMOVE_DEPTH = 6` from the source. -/
def PREMOVE_DEPTH : Nat := 6

/-- Configuration constant `FALLBACK_DEPTH = 1` from the source. -/
def FALLBACK_DEPTH : Nat := 1

/-- Abstract interface of the external python-chess library.  A position is
identified with the stack of moves applied from the initial position.
`legal b m` models `m in board.legal_moves` on the board reached by pushing
the moves of `b`; `is_game_over` and `result` model
`board.is_game_over(claim_draw=True)` and `board.result(claim_draw=True)`;
`fromUci` models `chess.Move.from_uci` with `none` marking the
`InvalidMoveError` raised on a malformed string; `uciOf` models
`Move.uci()`. -/
structure ChessLib where
  Move : Type
  legal : List Move → Move → Bool
  is_game_over : List Move → Bool
  result : List Move → String
  fromUci : String → Option Move
  uciOf : Move → String

/-- Outcome of `engine.play(board, limit)`: either it raises (`exn`), or it
returns a play result whose `move` field may be absent. -/
inductive EngineAnswer (Move : Type) where
  | exn : EngineAnswer Move
  | ok : Option Move → EngineAnswer Move
  deriving DecidableEq

/-- An engine process, modelled as a pure function of the position it is
given and the search depth limit. -/
def Engine (C : ChessLib) : Type := List C.Move → Nat → EngineAnswer C.Move

/-- Source `choose_premove(engine, board, depth)` (lines 30-38): ask the
engine for a move; on an exception print a warning and return `None`.
The returned pair carries the UCI string of the chosen move (or `none`)
together with the console lines printed by the call. -/
def choose_premove (C : ChessLib) (engine : Engine C) (board : List C.Move)
    (depth : Nat) : Option String × List String :=
  match engine board depth with
  | .ok (some m) => (some (C.uciOf m), [])
  | .ok none => (none, [])
  | .exn => (none, ["[warn] Engine failed to pick premove"])

/-- Source `safe_push(board, move_uci)` (lines 40-48): a falsy argument
(`None` or the empty string) reports failure; otherwise the string is
parsed (`chess.Move.from_uci`, which raises on a malformed string, the
`.error ()` case) and pushed when legal.  The returned pair is the boolean
result together with the board after the call. -/
def safe_push (C : ChessLib) (board : List C.Move) (move_uci : Option String) :
    Except Unit (Bool × List C.Move) :=
  match move_uci with
  | none => .ok (false, board)
  | some s =>
    if s = "" then .ok (false, board)
    else
      match C.fromUci s with
      | none => .error ()
      | some move =>
        if C.legal board move then .ok (true, board ++ [move])
        else .ok (false, board)

/-- The PGN game record built by the loop: the two name headers, the
`Result` header (absent until assigned), and the mainline move sequence
grown by `node.add_variation`. -/
structure Game (Move : Type) where
  white : String
  black : String
  result : Option String
  moves : List Move
  deriving DecidableEq

/-- The mutable state of `premove_match`: the board (move stack), the game
record, the `moves_played` counter, and the console output so far. -/
structure MatchState (Move : Type) where
  board : List Move
  game : Game Move
  moves_played : Nat
  log : List String
  deriving DecidableEq

/-- Outcome of one side's turn: either a move was pushed (giving the new
board and console log), or the side resigned because both its candidate
and the fallback failed to push. -/
inductive PhaseOut (Move : Type) where
  | moved : List Move → List String → PhaseOut Move
  | resigned : List String → PhaseOut Move
  deriving DecidableEq

/-- White's turn (source lines 66-72): try to push the premove; on failure
query the engine at fallback depth and try again; if that also fails,
White resigns. -/
def white_phase (C : ChessLib) (white_eng : Engine C) (board : List C.Move)
    (premove_white : Option String) (log : List String) :
    Except Unit (PhaseOut C.Move) :=
  match safe_push C board premove_white with
  | .error e => .error e
  | .ok (true, b1) => .ok (.moved b1 log)
  | .ok (false, b1) =>
    let fb := choose_premove C white_eng b1 FALLBACK_DEPTH
    match safe_push C b1 fb.1 with
    | .error e => .error e
    | .ok (true, b2) => .ok (.moved b2 (log ++ fb.2))
    | .ok (false, _) =>
      .ok (.resigned (log ++ fb.2 ++ ["[error] White cannot move. Resigns."]))

/-- The condition of source line 80,
`premove_black and chess.Move.from_uci(premove_black) in board.legal_moves`,
together with the push of line 81: `.ok (some b1)` when the premove was
present, parsed and legal (and was pushed, giving `b1`); `.ok none` when the
condition is false; `.error ()` when `from_uci` raises on a present but
malformed string. -/
def black_premove_try (C : ChessLib) (board : List C.Move)
    (premove_black : Option String) : Except Unit (Option (List C.Move)) :=
  match premove_black with
  | none => .ok none
  | some s =>
    if s = "" then .ok none
    else
      match C.fromUci s with
      | none => .error ()
      | some m =>
        if C.legal board m then .ok (some (board ++ [m])) else .ok none

/-- Black's turn (source lines 79-87): re-validate the already-computed
premove against the current board and push it if legal; otherwise query the
engine at fallback depth and `safe_push` the answer; if that also fails,
Black resigns. -/
def black_phase (C : ChessLib) (black_eng : Engine C) (board : List C.Move)
    (premove_black : Option String) (log : List String) :
    Except Unit (PhaseOut C.Move) :=
  match black_premove_try C board premove_black with
  | .error e => .error e
  | .ok (some b1) => .ok (.moved b1 log)
  | .ok none =>
    let fb := choose_premove C black_eng board FALLBACK_DEPTH
    match safe_push C board fb.1 with
    | .error e => .error e
    | .ok (true, b2) => .ok (.moved b2 (log ++ fb.2))
    | .ok (false, _) =>
      .ok (.resigned (log ++ fb.2 ++ ["[error] Black cannot move. Resigns."]))

/-- Outcome of one iteration of the `while` body: `ret` is an early
`return game` (a resignation), `brk` is the `break` of line 77, and `next`
continues with the next iteration. -/
inductive CycleOut (Move : Type) where
  | ret : MatchState Move → CycleOut Move
  | brk : MatchState Move → CycleOut Move
  | next : MatchState Move → CycleOut Move
  deriving DecidableEq

/-- One iteration of the `while` body of `premove_match` (source lines
61-90): both sides choose premoves from the same position, White plays
(with fallback), the pushed move is recorded and `moves_played` bumped, the
game-over check of line 76 may `break`, then Black plays (with fallback)
and is recorded likewise.  `board.peek()` is `List.getLast?`, whose `none`
case would be the `IndexError` of peeking an empty stack. -/
def cycle (C : ChessLib) (white_eng black_eng : Engine C)
    (st : MatchState C.Move) : Except Unit (CycleOut C.Move) :=
  let pw := choose_premove C white_eng st.board PREMOVE_DEPTH
  let pb := choose_premove C black_eng st.board PREMOVE_DEPTH
  let log0 := st.log ++ pw.2 ++ pb.2
  match white_phase C white_eng st.board pw.1 log0 with
  | .error e => .error e
  | .ok (.resigned logR) =>
    .ok (.ret { st with game := { st.game with result := some "0-1" }, log := logR })
  | .ok (.moved b1 log1) =>
    match b1.getLast? with
    | none => .error ()
    | some mv =>
      let st1 : MatchState C.Move :=
        { board := b1,
          game := { st.game with moves := st.game.moves ++ [mv] },
          moves_played := st.moves_played + 1,
          log := log1 }
      if C.is_game_over b1 then .ok (.brk st1)
      else
        match black_phase C black_eng b1 pb.1 st1.log with
        | .error e => .error e
        | .ok (.resigned logR) =>
          .ok (.ret { st1 with game := { st1.game with result := some "1-0" }, log := logR })
        | .ok (.moved b2 log2) =>
          match b2.getLast? with
          | none => .error ()
          | some mv2 =>
            .ok (.next { board := b2,
                         game := { st1.game with moves := st1.game.moves ++ [mv2] },
                         moves_played := st1.moves_played + 1,
                         log := log2 })

/-- Source line 92: `game.headers["Result"] = board.result(claim_draw=True)`,
performed on leaving the loop other than by a resignation `return`. -/
def set_final_result (C : ChessLib) (st : MatchState C.Move) : MatchState C.Move :=
  { st with game := { st.game with result := some (C.result st.board) } }

/-- The `while` loop of `premove_match` (source lines 61-93).  The loop
runs while the game is not over (with draw claims) and
`moves_played < MAX_MOVES`; since every iteration increases `moves_played`,
`MAX_MOVES` units of fuel always suffice, and the `.error ()` returned on
fuel exhaustion is unreachable from the initial state. -/
def match_loop (C : ChessLib) (white_eng black_eng : Engine C) :
    Nat → MatchState C.Move → Except Unit (MatchState C.Move)
  | 0, st =>
    if C.is_game_over st.board = false ∧ st.moves_played < MAX_MOVES then
      .error ()
    else .ok (set_final_result C st)
  | fuel + 1, st =>
    if C.is_game_over st.board = false ∧ st.moves_played < MAX_MOVES then
      match cycle C white_eng black_eng st with
      | .error e => .error e
      | .ok (.ret st') => .ok st'
      | .ok (.brk st') => .ok (set_final_result C st')
      | .ok (.next st') => match_loop C white_eng black_eng fuel st'
    else .ok (set_final_result C st)

/-- The state at the top of the first iteration (source lines 51-56):
fresh board, game record with the two name headers and no result, zero
moves played. -/
def init_state (C : ChessLib) (white_name black_name : String) :
    MatchState C.Move :=
  { board := [],
    game := { white := white_name, black := black_name, result := none, moves := [] },
    moves_played := 0,
    log := [] }

/-- Source `premove_match` (lines 50-93): run the loop from the initial
state and return the game record (the engines, spawned by `popen_uci` in
the source, are taken as arguments here).  The console log is returned
alongside the game. -/
def premove_match (C : ChessLib) (white_eng black_eng : Engine C)
    (white_name black_name : String) :
    Except Unit (Game C.Move × List String) :=
  (match_loop C white_eng black_eng MAX_MOVES
      (init_state C white_name black_name)).map (fun st => (st.game, st.log))

/-- `board.turn == chess.WHITE` for the board reached by pushing `board`:
a fresh board has White to move and every push flips the turn, so it is
White's turn exactly when the stack length is even. -/
def turn_white {Move : Type} (board : List Move) : Bool :=
  board.length % 2 == 0

/-- Loop-head invariant of `premove_match`: `moves_played` matches the
board's move stack, it is even, and the game record's mainline equals the
move stack. -/
def inv (C : ChessLib) (st : MatchState C.Move) : Prop :=
  st.moves_played = st.board.length ∧ st.moves_played % 2 = 0 ∧
    st.game.moves = st.board

/-- Relaxation of `inv` that holds at every loop exit (after a `break` the
counter is odd): the counter and the game record still match the board. -/
def board_sync (C : ChessLib) (st : MatchState C.Move) : Prop :=
  st.moves_played = st.board.length ∧ st.game.moves = st.board

/-- A move stack each of whose moves was legal in the position it was
played from. -/
def play_seq (C : ChessLib) (board : List C.Move) : Prop :=
  ∀ i : Nat, ∀ h : i < board.length,
    C.legal (board.take i) (board.get ⟨i, h⟩) = true

/-- A tiny concrete instance of the library interface, used to evaluate the
theorems below on closed inputs: moves are strings, a four-character string
parses as itself, every parsed move is legal, and the game is over once two
moves have been played. -/
def demo_lib : ChessLib where
  Move := String
  legal := fun _ _ => true
  is_game_over := fun b => decide (2 ≤ b.length)
  result := fun _ => "1/2-1/2"
  fromUci := fun s => if s.length = 4 then some s else none
  uciOf := fun m => m

/-- A demo engine that always proposes `e2e4`. -/
def good_white : Engine demo_lib := fun _ _ => .ok (some "e2e4")

/-- A demo engine that always proposes `e7e5`. -/
def good_black : Engine demo_lib := fun _ _ => .ok (some "e7e5")

/-- A demo engine whose every query raises. -/
def fail_eng : Engine demo_lib := fun _ _ => .exn

/-- State produced by one demo cycle in which both premoves apply. -/
def demo_next_state : MatchState demo_lib.Move :=
  { board := ["e2e4", "e7e5"],
    game := { white := "W", black := "B", result := none,
              moves := ["e2e4", "e7e5"] },
    moves_played := 2, log := [] }

/-- State produced by a demo cycle in which White resigns at once. -/
def demo_resign_state : MatchState demo_lib.Move :=
  { board := [],
    game := { white := "W", black := "B", result := some "0-1", moves := [] },
    moves_played := 0,
    log := ["[warn] Engine failed to pick premove",
            "[warn] Engine failed to pick premove",
            "[warn] Engine failed to pick premove",
            "[error] White cannot move. Resigns."] }

/-- Final game record of the completed demo match. -/
def demo_game : Game demo_lib.Move :=
  { white := "W", black := "B", result := some "1/2-1/2",
    moves := ["e2e4", "e7e5"] }

/-- The two premove queries at the top of a cycle (source lines 62-64),
viewed as an observation of the shared position: the position handed to
both queries and each side's candidate move string. -/
def premove_queries (C : ChessLib) (we be : Engine C) (board : List C.Move) :
    List C.Move × Option String × Option String :=
  let premove_white := choose_premove C we board PREMOVE_DEPTH
  let premove_black := choose_premove C be board PREMOVE_DEPTH
  (board, premove_white.1, premove_black.1)

/-- The same observation with the order of the two queries swapped. -/
def premove_queries_swapped (C : ChessLib) (we be : Engine C)
    (board : List C.Move) : List C.Move × Option String × Option String :=
  let premove_black := choose_premove C be board PREMOVE_DEPTH
  let premove_white := choose_premove C we board PREMOVE_DEPTH
  (board, premove_white.1, premove_black.1)

/-! ### Characterization lemmas for the push helpers -/

theorem safe_push_ok_true {C : ChessLib} {b : List C.Move} {mu : Option String}
    {b' : List C.Move} (h : safe_push C b mu = .ok (true, b')) :
    ∃ s m, mu = some s ∧ ¬s = "" ∧ C.fromUci s = some m ∧
      C.legal b m = true ∧ b' = b ++ [m] := by
  match mu with
  | none => simp [safe_push] at h
  | some s =>
    simp only [safe_push] at h
    by_cases hs : s = ""
    · simp [hs] at h
    · rw [if_neg hs] at h
      match hf : C.fromUci s with
      | none => simp only [hf] at h; exact absurd h (by simp)
      | some m =>
        simp only [hf] at h
        by_cases hl : C.legal b m = true
        · rw [if_pos hl] at h
          refine ⟨s, m, rfl, hs, hf, hl, ?_⟩
          simpa using h.symm
        · rw [if_neg hl] at h
          simp at h

theorem safe_push_ok_false {C : ChessLib} {b : List C.Move} {mu : Option String}
    {b' : List C.Move} (h : safe_push C b mu = .ok (false, b')) : b' = b := by
  match mu with
  | none => simpa [safe_push] using h.symm
  | some s =>
    simp only [safe_push] at h
    by_cases hs : s = ""
    · rw [if_pos hs] at h; simpa using h.symm
    · rw [if_neg hs] at h
      match hf : C.fromUci s with
      | none => simp only [hf] at h; exact absurd h (by simp)
      | some m =>
        simp only [hf] at h
        by_cases hl : C.legal b m = true
        · rw [if_pos hl] at h; simp at h
        · rw [if_neg hl] at h; simpa using h.symm

theorem black_premove_try_some {C : ChessLib} {b : List C.Move}
    {pb : Option String} {b1 : List C.Move}
    (h : black_premove_try C b pb = .ok (some b1)) :
    ∃ s m, pb = some s ∧ ¬s = "" ∧ C.fromUci s = some m ∧
      C.legal b m = true ∧ b1 = b ++ [m] := by
  match pb with
  | none => simp [black_premove_try] at h
  | some s =>
    simp only [black_premove_try] at h
    by_cases hs : s = ""
    · simp [hs] at h
    · rw [if_neg hs] at h
      match hf : C.fromUci s with
      | none => simp only [hf] at h; exact absurd h (by simp)
      | some m =>
        simp only [hf] at h
        by_cases hl : C.legal b m = true
        · rw [if_pos hl] at h
          refine ⟨s, m, rfl, hs, hf, hl, ?_⟩
          simpa using h.symm
        · rw [if_neg hl] at h; simp at h

theorem white_phase_moved {C : ChessLib} {eng : Engine C} {b : List C.Move}
    {cand : Option String} {log : List String} {b1 : List C.Move}
    {l1 : List String} (h : white_phase C eng b cand log = .ok (.moved b1 l1)) :
    ∃ m, C.legal b m = true ∧ b1 = b ++ [m] := by
  simp only [white_phase] at h
  split at h
  · exact absurd h (by simp)
  · rename_i bb heq
    obtain ⟨s, m, _, _, _, hl, hb⟩ := safe_push_ok_true heq
    injection h with h2
    injection h2 with hb1 hl1
    exact ⟨m, hl, by rw [← hb1, hb]⟩
  · rename_i bb heq
    have hbb : bb = b := safe_push_ok_false heq
    split at h
    · exact absurd h (by simp)
    · rename_i bb2 heq2
      obtain ⟨s, m, _, _, _, hl, hb⟩ := safe_push_ok_true heq2
      injection h with h2
      injection h2 with hb1 hl1
      refine ⟨m, ?_, ?_⟩
      · rw [← hbb]; exact hl
      · rw [← hb1, hb, hbb]
    · exact absurd h (by simp)

theorem black_phase_moved {C : ChessLib} {eng : Engine C} {b : List C.Move}
    {cand : Option String} {log : List String} {b1 : List C.Move}
    {l1 : List String} (h : black_phase C eng b cand log = .ok (.moved b1 l1)) :
    ∃ m, C.legal b m = true ∧ b1 = b ++ [m] := by
  simp only [black_phase] at h
  split at h
  · exact absurd h (by simp)
  · rename_i bb heq
    obtain ⟨s, m, _, _, _, hl, hb⟩ := black_premove_try_some heq
    injection h with h2
    injection h2 with hb1 hl1
    exact ⟨m, hl, by rw [← hb1, hb]⟩
  · rename_i heq
    split at h
    · exact absurd h (by simp)
    · rename_i bb2 heq2
      obtain ⟨s, m, _, _, _, hl, hb⟩ := safe_push_ok_true heq2
      injection h with h2
      injection h2 with hb1 hl1
      exact ⟨m, hl, by rw [← hb1, hb]⟩
    · exact absurd h (by simp)

/-! ### Characterization lemmas for one loop iteration -/

theorem cycle_ret_char {C : ChessLib} {we be : Engine C}
    {st st' : MatchState C.Move} (h : cycle C we be st = .ok (.ret st')) :
    (st'.board = st.board ∧ st'.moves_played = st.moves_played ∧
      st'.game.moves = st.game.moves ∧ st'.game.result = some "0-1" ∧
      st'.game.white = st.game.white ∧ st'.game.black = st.game.black)
    ∨ (∃ w, C.legal st.board w = true ∧ st'.board = st.board ++ [w] ∧
      C.is_game_over (st.board ++ [w]) = false ∧
      st'.moves_played = st.moves_played + 1 ∧
      st'.game.moves = st.game.moves ++ [w] ∧ st'.game.result = some "1-0" ∧
      st'.game.white = st.game.white ∧ st'.game.black = st.game.black) := by
  simp only [cycle] at h
  split at h
  · exact absurd h (by simp)
  · rename_i logR heqW
    injection h with h2
    injection h2 with h3
    subst h3
    exact Or.inl ⟨rfl, rfl, rfl, rfl, rfl, rfl⟩
  · rename_i b1 log1 heqW
    obtain ⟨m, hl, hb⟩ := white_phase_moved heqW
    split at h
    · exact absurd h (by simp)
    · rename_i mv heqL
      rw [hb, List.getLast?_concat] at heqL
      injection heqL with hmv
      split at h
      · exact absurd h (by simp)
      · rename_i hgo
        split at h
        · exact absurd h (by simp)
        · rename_i logR heqB
          injection h with h2
          injection h2 with h3
          subst h3
          refine Or.inr ⟨m, hl, ?_, ?_, ?_, ?_, ?_, ?_, ?_⟩ <;>
            simp [hb, ← hmv, Bool.not_eq_true] at hgo ⊢
          exact hgo
        · rename_i b2 log2 heqB
          split at h
          · exact absurd h (by simp)
          · exact absurd h (by simp)

theorem cycle_brk_char {C : ChessLib} {we be : Engine C}
    {st st' : MatchState C.Move} (h : cycle C we be st = .ok (.brk st')) :
    ∃ w, C.legal st.board w = true ∧ st'.board = st.board ++ [w] ∧
      C.is_game_over st'.board = true ∧
      st'.moves_played = st.moves_played + 1 ∧
      st'.game.moves = st.game.moves ++ [w] ∧
      st'.game.result = st.game.result ∧
      st'.game.white = st.game.white ∧ st'.game.black = st.game.black := by
  simp only [cycle] at h
  split at h
  · exact absurd h (by simp)
  · exact absurd h (by simp)
  · rename_i b1 log1 heqW
    obtain ⟨m, hl, hb⟩ := white_phase_moved heqW
    split at h
    · exact absurd h (by simp)
    · rename_i mv heqL
      rw [hb, List.getLast?_concat] at heqL
      injection heqL with hmv
      split at h
      · rename_i hgo
        injection h with h2
        injection h2 with h3
        subst h3
        subst hb
        subst hmv
        exact ⟨m, hl, rfl, hgo, rfl, rfl, rfl, rfl, rfl⟩
      · rename_i hgo
        split at h
        · exact absurd h (by simp)
        · exact absurd h (by simp)
        · rename_i b2 log2 heqB
          split at h
          · exact absurd h (by simp)
          · exact absurd h (by simp)

theorem cycle_next_char {C : ChessLib} {we be : Engine C}
    {st st' : MatchState C.Move} (h : cycle C we be st = .ok (.next st')) :
    ∃ w b, C.legal st.board w = true ∧ C.legal (st.board ++ [w]) b = true ∧
      st'.board = st.board ++ [w, b] ∧
      C.is_game_over (st.board ++ [w]) = false ∧
      st'.moves_played = st.moves_played + 2 ∧
      st'.game.moves = st.game.moves ++ [w, b] ∧
      st'.game.result = st.game.result ∧
      st'.game.white = st.game.white ∧ st'.game.black = st.game.black := by
  simp only [cycle] at h
  split at h
  · exact absurd h (by simp)
  · exact absurd h (by simp)
  · rename_i b1 log1 heqW
    obtain ⟨m, hl, hb⟩ := white_phase_moved heqW
    split at h
    · exact absurd h (by simp)
    · rename_i mv heqL
      rw [hb, List.getLast?_concat] at heqL
      injection heqL with hmv
      split at h
      · exact absurd h (by simp)
      · rename_i hgo
        split at h
        · exact absurd h (by simp)
        · exact absurd h (by simp)
        · rename_i b2 log2 heqB
          obtain ⟨m2, hl2, hb2⟩ := black_phase_moved heqB
          split at h
          · exact absurd h (by simp)
          · rename_i mv2 heqL2
            rw [hb2, List.getLast?_concat] at heqL2
            injection heqL2 with hmv2
            injection h with h2
            injection h2 with h3
            subst h3
            subst hb
            subst hmv
            subst hb2
            subst hmv2
            exact ⟨m, m2, hl, hl2, by simp, by simpa using hgo, rfl, by simp,
              rfl, rfl, rfl⟩

/-! ### Loop-level lemmas -/

theorem play_seq_nil {C : ChessLib} : play_seq C [] := by
  intro i h
  exact absurd h (by simp)

theorem play_seq_concat {C : ChessLib} {l : List C.Move} {m : C.Move}
    (hp : play_seq C l) (hm : C.legal l m = true) : play_seq C (l ++ [m]) := by
  intro i h
  have hlen : i < l.length + 1 := by simpa using h
  rcases Nat.lt_or_ge i l.length with hi | hi
  · rw [List.take_append_of_le_length (Nat.le_of_lt hi)]
    have hg : (l ++ [m]).get ⟨i, h⟩ = l.get ⟨i, hi⟩ := by
      simp [List.getElem_append, hi]
    rw [hg]
    exact hp i hi
  · have hi' : i = l.length := Nat.le_antisymm (Nat.lt_succ_iff.mp hlen) hi
    subst hi'
    rw [List.take_append_of_le_length (Nat.le_refl _), List.take_length]
    have hg : (l ++ [m]).get ⟨l.length, h⟩ = m := by simp
    rw [hg]
    exact hm

/-- The loop-head invariant `inv` (counter equals stack length, counter even,
game record equals stack) entails at every successful exit of the loop that
the counter and the game record still match the board, and that the counter
never exceeds `MAX_MOVES`. -/
theorem match_loop_sync {C : ChessLib} {we be : Engine C} :
    ∀ (fuel : Nat) (st st' : MatchState C.Move), inv C st →
      st.moves_played ≤ MAX_MOVES →
      match_loop C we be fuel st = .ok st' →
      board_sync C st' ∧ st'.moves_played ≤ MAX_MOVES := by
  intro fuel
  induction fuel with
  | zero =>
    intro st st' hinv hle h
    simp only [match_loop] at h
    split at h
    · exact absurd h (by simp)
    · injection h with h2
      subst h2
      exact ⟨⟨hinv.1, hinv.2.2⟩, hle⟩
  | succ fuel ih =>
    intro st st' hinv hle h
    simp only [match_loop] at h
    split at h
    · rename_i hcond
      split at h
      · exact absurd h (by simp)
      · rename_i stR heqC
        injection h with h2
        subst h2
        rcases cycle_ret_char heqC with
          ⟨hb, hmp, hgm, _⟩ | ⟨w, _, hb, _, hmp, hgm, _⟩
        · refine ⟨⟨?_, ?_⟩, ?_⟩
          · rw [hmp, hb, hinv.1]
          · rw [hgm, hb, hinv.2.2]
          · omega
        · refine ⟨⟨?_, ?_⟩, ?_⟩
          · rw [hmp, hb, hinv.1]; simp
          · rw [hgm, hb, hinv.2.2]
          · omega
      · rename_i stB heqC
        injection h with h2
        subst h2
        obtain ⟨w, _, hb, _, hmp, hgm, _⟩ := cycle_brk_char heqC
        refine ⟨⟨?_, ?_⟩, ?_⟩
        · show stB.moves_played = stB.board.length
          rw [hmp, hb, hinv.1]; simp
        · show stB.game.moves = stB.board
          rw [hgm, hb, hinv.2.2]
        · show stB.moves_played ≤ MAX_MOVES
          omega
      · rename_i stN heqC
        obtain ⟨w, b, _, _, hb, _, hmp, hgm, hres, _⟩ := cycle_next_char heqC
        have hinvN : inv C stN := by
          have heven := hinv.2.1
          refine ⟨?_, ?_, ?_⟩
          · rw [hmp, hb, hinv.1]; simp
          · rw [hmp]; omega
          · rw [hgm, hb, hinv.2.2]
        have hleN : stN.moves_played ≤ MAX_MOVES := by
          have heven := hinv.2.1
          have hlt := hcond.2
          unfold MAX_MOVES at hlt ⊢
          omega
        exact ih stN st' hinvN hleN h
    · injection h with h2
      subst h2
      exact ⟨⟨hinv.1, hinv.2.2⟩, hle⟩

/-- Every successful run of the loop either ends in a resignation `return`
(the returned state is exactly the state built by some iteration's
resignation branch) or assigns `board.result(claim_draw=True)` to the
`Result` header at the loop exit of line 92. -/
theorem match_loop_result {C : ChessLib} {we be : Engine C} :
    ∀ (fuel : Nat) (st st' : MatchState C.Move),
      match_loop C we be fuel st = .ok st' →
      (∃ st0, cycle C we be st0 = .ok (.ret st')) ∨
        st'.game.result = some (C.result st'.board) := by
  intro fuel
  induction fuel with
  | zero =>
    intro st st' h
    simp only [match_loop] at h
    split at h
    · exact absurd h (by simp)
    · injection h with h2
      subst h2
      exact Or.inr rfl
  | succ fuel ih =>
    intro st st' h
    simp only [match_loop] at h
    split at h
    · split at h
      · exact absurd h (by simp)
      · rename_i stR heqC
        injection h with h2
        subst h2
        exact Or.inl ⟨st, heqC⟩
      · rename_i stB heqC
        injection h with h2
        subst h2
        exact Or.inr rfl
      · rename_i stN heqC
        exact ih stN st' h
    · injection h with h2
      subst h2
      exact Or.inr rfl

/-- Moves pushed by the loop are legal at the moment of the push: the loop
preserves the property that the board is a stack of moves each legal in the
position it was played from. -/
theorem match_loop_play_seq {C : ChessLib} {we be : Engine C} :
    ∀ (fuel : Nat) (st st' : MatchState C.Move), play_seq C st.board →
      match_loop C we be fuel st = .ok st' → play_seq C st'.board := by
  intro fuel
  induction fuel with
  | zero =>
    intro st st' hp h
    simp only [match_loop] at h
    split at h
    · exact absurd h (by simp)
    · injection h with h2
      subst h2
      exact hp
  | succ fuel ih =>
    intro st st' hp h
    simp only [match_loop] at h
    split at h
    · split at h
      · exact absurd h (by simp)
      · rename_i stR heqC
        injection h with h2
        subst h2
        rcases cycle_ret_char heqC with
          ⟨hb, _⟩ | ⟨w, hw, hb, _⟩
        · rw [hb]; exact hp
        · rw [hb]; exact play_seq_concat hp hw
      · rename_i stB heqC
        injection h with h2
        subst h2
        obtain ⟨w, hw, hb, _⟩ := cycle_brk_char heqC
        show play_seq C stB.board
        rw [hb]
        exact play_seq_concat hp hw
      · rename_i stN heqC
        obtain ⟨w, b, hw, hbl, hb, _⟩ := cycle_next_char heqC
        have hpN : play_seq C stN.board := by
          rw [hb]
          have h1 : play_seq C (st.board ++ [w]) := play_seq_concat hp hw
          have h2 : play_seq C ((st.board ++ [w]) ++ [b]) :=
            play_seq_concat h1 hbl
          simpa using h2
        exact ih stN st' hpN h
    · injection h with h2
      subst h2
      exact hp

/-! ### Claim theorems -/

/-- Claim C6: `safe_push`, given a board and an optional UCI move string
(absent, empty, or parseable), returns success and pushes the parsed move
exactly when the move is present and currently legal; otherwise it reports
failure with the board unchanged, and an absent (`None`/empty) move is
always failure and never raises. -/
theorem c6_safe_push_contract (C : ChessLib) (b : List C.Move)
    (mu : Option String)
    (hwf : mu = none ∨ mu = some "" ∨ ∃ s m, mu = some s ∧ C.fromUci s = some m) :
    ∃ ok b', safe_push C b mu = .ok (ok, b')
      ∧ (ok = true ↔ ∃ s m, mu = some s ∧ ¬s = "" ∧ C.fromUci s = some m ∧
          C.legal b m = true)
      ∧ (ok = true → ∃ s m, mu = some s ∧ C.fromUci s = some m ∧
          b' = b ++ [m])
      ∧ (ok = false → b' = b) := by
  rcases hwf with h | h | ⟨s, m, hs, hf⟩
  · subst h
    exact ⟨false, b, rfl, by simp, by simp, fun _ => rfl⟩
  · subst h
    refine ⟨false, b, by simp [safe_push], ?_, by simp, fun _ => rfl⟩
    constructor
    · intro hc; exact absurd hc (by simp)
    · rintro ⟨s', m', hss, hne, -⟩
      injection hss with h1
      exact absurd h1.symm hne
  · subst hs
    by_cases hse : s = ""
    · subst hse
      refine ⟨false, b, by simp [safe_push], ?_, by simp, fun _ => rfl⟩
      constructor
      · intro hc; exact absurd hc (by simp)
      · rintro ⟨s', m', hss, hne, -⟩
        injection hss with h1
        exact absurd h1.symm hne
    · by_cases hl : C.legal b m = true
      · refine ⟨true, b ++ [m], by simp [safe_push, hse, hf, hl], ?_, ?_, by simp⟩
        · exact ⟨fun _ => ⟨s, m, rfl, hse, hf, hl⟩, fun _ => rfl⟩
        · intro _; exact ⟨s, m, rfl, hf, rfl⟩
      · have hl' : C.legal b m = false := by simpa using hl
        refine ⟨false, b, by simp [safe_push, hse, hf, hl'], ?_, by simp,
          fun _ => rfl⟩
        constructor
        · intro hc; exact absurd hc (by simp)
        · rintro ⟨s', m', hss, -, hff, hll⟩
          injection hss with h1
          subst h1
          rw [hf] at hff
          injection hff with h2
          subst h2
          rw [hl'] at hll
          exact absurd hll (by simp)

/-- Witness for C6 at a concrete input: an absent move is failure with the
board unchanged and no exception. -/
theorem c6_safe_push_contract_witness :
    ((none : Option String) = none ∨ (none : Option String) = some "" ∨
      ∃ s m, (none : Option String) = some s ∧ demo_lib.fromUci s = some m)
    ∧ ∃ ok b', safe_push demo_lib [] none = .ok (ok, b')
      ∧ (ok = true ↔ ∃ s m, (none : Option String) = some s ∧ ¬s = "" ∧
          demo_lib.fromUci s = some m ∧ demo_lib.legal [] m = true)
      ∧ (ok = true → ∃ s m, (none : Option String) = some s ∧
          demo_lib.fromUci s = some m ∧ b' = [] ++ [m])
      ∧ (ok = false → b' = []) :=
  ⟨Or.inl rfl, c6_safe_push_contract demo_lib [] none (Or.inl rfl)⟩

/-- Claim C7: an engine query that raises inside `choose_premove` is caught
there, logged as a warning, and converted to the absence-of-move result;
the failure never propagates to the caller (the function returns normally). -/
theorem c7_engine_failure_swallowed (C : ChessLib) (eng : Engine C)
    (b : List C.Move) (d : Nat) (h : eng b d = .exn) :
    choose_premove C eng b d = (none, ["[warn] Engine failed to pick premove"]) := by
  unfold choose_premove
  rw [h]

/-- Witness for C7 at a concrete input: the always-raising demo engine. -/
theorem c7_engine_failure_swallowed_witness :
    fail_eng [] PREMOVE_DEPTH = .exn ∧
      choose_premove demo_lib fail_eng [] PREMOVE_DEPTH =
        (none, ["[warn] Engine failed to pick premove"]) :=
  ⟨rfl, c7_engine_failure_swallowed demo_lib fail_eng [] PREMOVE_DEPTH rfl⟩

/-- Claim C8: the premove queries are pure observations of the shared
position (each engine being a function of position and depth):
`choose_premove` leaves the board untouched, so swapping the order of the
White and Black queries yields the same board and the same pair of
candidates. -/
theorem c8_queries_commute (C : ChessLib) (we be : Engine C)
    (board : List C.Move) :
    premove_queries C we be board = premove_queries_swapped C we be board ∧
      (premove_queries C we be board).1 = board :=
  ⟨rfl, rfl⟩

/-- Claim C10: `safe_push` is total exactly under the well-formedness
precondition: any absent, empty, or parseable argument yields a boolean
without raising, while a present but malformed string reaches the parse
step before the legality check and raises. -/
theorem c10_safe_push_totality (C : ChessLib) (b : List C.Move) :
    (∀ mu, (mu = none ∨ mu = some "" ∨
        ∃ s m, mu = some s ∧ C.fromUci s = some m) →
      ∃ ok b', safe_push C b mu = .ok (ok, b'))
    ∧ (∀ s, ¬s = "" → C.fromUci s = none →
        safe_push C b (some s) = .error ()) := by
  constructor
  · intro mu hwf
    rcases hwf with h | h | ⟨s, m, hs, hf⟩
    · subst h
      exact ⟨false, b, rfl⟩
    · subst h
      exact ⟨false, b, by simp [safe_push]⟩
    · subst hs
      by_cases hse : s = ""
      · exact ⟨false, b, by simp [safe_push, hse]⟩
      · by_cases hl : C.legal b m = true
        · exact ⟨true, b ++ [m], by simp [safe_push, hse, hf, hl]⟩
        · have hl' : C.legal b m = false := by simpa using hl
          exact ⟨false, b, by simp [safe_push, hse, hf, hl']⟩
  · intro s hse hf
    simp [safe_push, hse, hf]

/-- Witness for C10 at concrete inputs: the four-character demo parser
accepts `e2e4` and rejects the malformed `zz`. -/
theorem c10_safe_push_totality_witness :
    ((some "e2e4" = none ∨ (some "e2e4" : Option String) = some "" ∨
        ∃ s m, (some "e2e4" : Option String) = some s ∧
          demo_lib.fromUci s = some m)
      ∧ ∃ ok b', safe_push demo_lib [] (some "e2e4") = .ok (ok, b'))
    ∧ (¬"zz" = "" ∧ demo_lib.fromUci "zz" = none ∧
        safe_push demo_lib [] (some "zz") = .error ()) :=
  ⟨⟨Or.inr (Or.inr ⟨"e2e4", "e2e4", rfl, rfl⟩),
      (c10_safe_push_totality demo_lib []).1 (some "e2e4")
        (Or.inr (Or.inr ⟨"e2e4", "e2e4", rfl, rfl⟩))⟩,
    ⟨by decide, rfl, (c10_safe_push_totality demo_lib []).2 "zz" (by decide) rfl⟩⟩

/-- Claim C1: after White's move is applied in a cycle, the game-over check
of line 76 stops the loop before Black's turn, so no Black move is applied
in a cycle whose post-White position is terminal or whose `moves_played`
has reached `MAX_MOVES` after White's move (the counter is even and below
the even ceiling at the top of a cycle, so it cannot hit the ceiling after
one move). -/
theorem c1_terminal_check_before_black (C : ChessLib) (we be : Engine C)
    (st : MatchState C.Move)
    (heven : st.moves_played % 2 = 0) (hlt : st.moves_played < MAX_MOVES) :
    (∀ st', cycle C we be st = .ok (.next st') →
      ∃ w b, st'.board = st.board ++ [w, b] ∧
        C.is_game_over (st.board ++ [w]) = false ∧
        st.moves_played + 1 < MAX_MOVES)
    ∧ (∀ st', cycle C we be st = .ok (.brk st') →
        C.is_game_over st'.board = true) := by
  constructor
  · intro st' h
    obtain ⟨w, b, _, _, hb, hgo, _⟩ := cycle_next_char h
    refine ⟨w, b, hb, hgo, ?_⟩
    unfold MAX_MOVES at hlt ⊢
    omega
  · intro st' h
    obtain ⟨w, _, _, hgo, _⟩ := cycle_brk_char h
    exact hgo

/-- Witness for C1 at a concrete input: a demo cycle in which Black does
move, and the intermediate position is indeed non-terminal. -/
theorem c1_terminal_check_before_black_witness :
    ((init_state demo_lib "W" "B").moves_played % 2 = 0
      ∧ (init_state demo_lib "W" "B").moves_played < MAX_MOVES
      ∧ cycle demo_lib good_white good_black (init_state demo_lib "W" "B") =
          .ok (.next demo_next_state))
    ∧ ∃ w b,
        demo_next_state.board = (init_state demo_lib "W" "B").board ++ [w, b]
        ∧ demo_lib.is_game_over
            ((init_state demo_lib "W" "B").board ++ [w]) = false
        ∧ (init_state demo_lib "W" "B").moves_played + 1 < MAX_MOVES :=
  ⟨⟨rfl, by decide, rfl⟩,
    (c1_terminal_check_before_black demo_lib good_white good_black
        (init_state demo_lib "W" "B") rfl (by decide)).1 demo_next_state rfl⟩

/-- Claim C2: for every completed match, the returned game record's move
sequence is exactly the final board's move stack — one record entry per
successful push, the board never being popped — and its length is at most
`2 * MAX_MOVES`. -/
theorem c2_record_matches_pushes (C : ChessLib) (we be : Engine C)
    (wn bn : String) (g : Game C.Move) (lg : List String)
    (h : premove_match C we be wn bn = .ok (g, lg)) :
    ∃ st, match_loop C we be MAX_MOVES (init_state C wn bn) = .ok st ∧
      st.game = g ∧ g.moves = st.board ∧
      g.moves.length = st.moves_played ∧
      g.moves.length ≤ 2 * MAX_MOVES := by
  unfold premove_match at h
  cases hml : match_loop C we be MAX_MOVES (init_state C wn bn) with
  | error e =>
    rw [hml] at h
    exact absurd h (by simp [Except.map])
  | ok st =>
    rw [hml] at h
    simp only [Except.map] at h
    injection h with h2
    have hg : st.game = g := congrArg Prod.fst h2
    have hinv0 : inv C (init_state C wn bn) := ⟨rfl, rfl, rfl⟩
    have hle0 : (init_state C wn bn).moves_played ≤ MAX_MOVES := Nat.zero_le _
    obtain ⟨hsync, hle⟩ := match_loop_sync MAX_MOVES _ st hinv0 hle0 hml
    refine ⟨st, rfl, hg, ?_, ?_, ?_⟩
    · rw [← hg]; exact hsync.2
    · rw [← hg, hsync.2, ← hsync.1]
    · rw [← hg, hsync.2, ← hsync.1]
      omega

/-- Witness for C2 at a concrete input: the completed two-move demo match. -/
theorem c2_record_matches_pushes_witness :
    premove_match demo_lib good_white good_black "W" "B" = .ok (demo_game, [])
    ∧ ∃ st, match_loop demo_lib good_white good_black MAX_MOVES
          (init_state demo_lib "W" "B") = .ok st ∧
        st.game = demo_game ∧ demo_game.moves = st.board ∧
        demo_game.moves.length = st.moves_played ∧
        demo_game.moves.length ≤ 2 * MAX_MOVES :=
  ⟨rfl, c2_record_matches_pushes demo_lib good_white good_black "W" "B"
      demo_game [] rfl⟩

/-- Claim C3: Black's turn re-validates the premove candidate computed
before White moved, so every move the loop pushes — in particular Black's —
is legal in the position at the moment of the push: the loop preserves the
legal-play-sequence property of the board, and a cycle in which Black moved
pushed a move legal in the post-White-move position. -/
theorem c3_premove_revalidated (C : ChessLib) (we be : Engine C) :
    (∀ fuel (st st' : MatchState C.Move), play_seq C st.board →
        match_loop C we be fuel st = .ok st' → play_seq C st'.board)
    ∧ (∀ (st st' : MatchState C.Move), cycle C we be st = .ok (.next st') →
        ∃ w b, st'.board = st.board ++ [w, b] ∧
          C.legal (st.board ++ [w]) b = true) := by
  constructor
  · exact fun fuel st st' => match_loop_play_seq fuel st st'
  · intro st st' h
    obtain ⟨w, b, _, hbl, hb, _⟩ := cycle_next_char h
    exact ⟨w, b, hb, hbl⟩

/-- Witness for C3 at a concrete input: the demo match run and the demo
cycle. -/
theorem c3_premove_revalidated_witness :
    (play_seq demo_lib (init_state demo_lib "W" "B").board
      ∧ match_loop demo_lib good_white good_black MAX_MOVES
          (init_state demo_lib "W" "B") =
            .ok (set_final_result demo_lib demo_next_state)
      ∧ play_seq demo_lib (set_final_result demo_lib demo_next_state).board)
    ∧ (cycle demo_lib good_white good_black (init_state demo_lib "W" "B") =
          .ok (.next demo_next_state)
      ∧ ∃ w b,
          demo_next_state.board =
            (init_state demo_lib "W" "B").board ++ [w, b]
          ∧ demo_lib.legal
              ((init_state demo_lib "W" "B").board ++ [w]) b = true) :=
  ⟨⟨play_seq_nil, rfl,
      (c3_premove_revalidated demo_lib good_white good_black).1 MAX_MOVES
        (init_state demo_lib "W" "B") (set_final_result demo_lib demo_next_state)
        play_seq_nil rfl⟩,
    ⟨rfl, (c3_premove_revalidated demo_lib good_white good_black).2
        (init_state demo_lib "W" "B") demo_next_state rfl⟩⟩

/-- Claim C4: a resignation ends the match immediately with the result
crediting the opposing side: a cycle returning early either left the board
unchanged and set the result to `0-1` (White resigned) or applied only
White's move and set the result to `1-0` (Black resigned), and the loop
returns that state as is, applying no further moves. -/
theorem c4_resignation_result (C : ChessLib) (we be : Engine C)
    (st st' : MatchState C.Move) :
    (cycle C we be st = .ok (.ret st') →
      ((st'.board = st.board ∧ st'.game.result = some "0-1") ∨
        ((∃ w, st'.board = st.board ++ [w]) ∧ st'.game.result = some "1-0")))
    ∧ (∀ fuel, C.is_game_over st.board = false → st.moves_played < MAX_MOVES →
        cycle C we be st = .ok (.ret st') →
        match_loop C we be (fuel + 1) st = .ok st') := by
  constructor
  · intro h
    rcases cycle_ret_char h with ⟨hb, _, _, hres, _⟩ | ⟨w, _, hb, _, _, _, hres, _⟩
    · exact Or.inl ⟨hb, hres⟩
    · exact Or.inr ⟨⟨w, hb⟩, hres⟩
  · intro fuel hgo hlt h
    simp only [match_loop]
    rw [if_pos ⟨hgo, hlt⟩, h]

/-- Witness for C4 at a concrete input: the demo match in which White
resigns in the first cycle. -/
theorem c4_resignation_result_witness :
    (cycle demo_lib fail_eng fail_eng (init_state demo_lib "W" "B") =
        .ok (.ret demo_resign_state)
      ∧ ((demo_resign_state.board = (init_state demo_lib "W" "B").board ∧
            demo_resign_state.game.result = some "0-1") ∨
          ((∃ w, demo_resign_state.board =
              (init_state demo_lib "W" "B").board ++ [w]) ∧
            demo_resign_state.game.result = some "1-0")))
    ∧ (demo_lib.is_game_over (init_state demo_lib "W" "B").board = false
      ∧ (init_state demo_lib "W" "B").moves_played < MAX_MOVES
      ∧ match_loop demo_lib fail_eng fail_eng (0 + 1)
          (init_state demo_lib "W" "B") = .ok demo_resign_state) :=
  ⟨⟨rfl, (c4_resignation_result demo_lib fail_eng fail_eng
        (init_state demo_lib "W" "B") demo_resign_state).1 rfl⟩,
    ⟨rfl, by decide,
      (c4_resignation_result demo_lib fail_eng fail_eng
        (init_state demo_lib "W" "B") demo_resign_state).2 0 rfl (by decide) rfl⟩⟩

/-- Claim C5: every successful run of the loop either ends in a
resignation return, or its final `Result` header is exactly the value of
the position's own game-outcome evaluator with draw claims enabled applied
to the final board. -/
theorem c5_result_from_evaluator (C : ChessLib) (we be : Engine C)
    (fuel : Nat) (st st' : MatchState C.Move)
    (h : match_loop C we be fuel st = .ok st') :
    (∃ st0, cycle C we be st0 = .ok (.ret st')) ∨
      st'.game.result = some (C.result st'.board) :=
  match_loop_result fuel st st' h

/-- Witness for C5 at a concrete input: the completed demo match, whose
result header is the evaluator's verdict. -/
theorem c5_result_from_evaluator_witness :
    match_loop demo_lib good_white good_black MAX_MOVES
        (init_state demo_lib "W" "B") =
      .ok (set_final_result demo_lib demo_next_state)
    ∧ ((∃ st0, cycle demo_lib good_white good_black st0 =
          .ok (.ret (set_final_result demo_lib demo_next_state))) ∨
        (set_final_result demo_lib demo_next_state).game.result =
          some (demo_lib.result (set_final_result demo_lib demo_next_state).board)) :=
  ⟨rfl, c5_result_from_evaluator demo_lib good_white good_black MAX_MOVES
      (init_state demo_lib "W" "B") (set_final_result demo_lib demo_next_state) rfl⟩

/-- Claim C9 (amended): at the top of every iteration `moves_played` equals
the move-stack length, is even, and it is White's turn; the initial state
satisfies this invariant and a completed cycle re-establishes it two moves
later.  An iteration that runs to the loop boundary applies one move
(`break`) or two (`continue`); an iteration that ends in a resignation
return applies zero (White resigned) or one (Black resigned). -/
theorem c9_loop_invariant (C : ChessLib) (we be : Engine C)
    (wn bn : String) (st st' : MatchState C.Move) :
    inv C (init_state C wn bn)
    ∧ (inv C st → turn_white st.board = true)
    ∧ (inv C st → cycle C we be st = .ok (.next st') →
        inv C st' ∧ st'.board.length = st.board.length + 2)
    ∧ (cycle C we be st = .ok (.brk st') →
        st'.board.length = st.board.length + 1)
    ∧ (cycle C we be st = .ok (.ret st') →
        st'.board.length = st.board.length ∨
          st'.board.length = st.board.length + 1) := by
  refine ⟨⟨rfl, rfl, rfl⟩, ?_, ?_, ?_, ?_⟩
  · intro hinv
    have h1 := hinv.1
    have h2 := hinv.2.1
    simp only [turn_white, beq_iff_eq]
    omega
  · intro hinv h
    obtain ⟨w, b, _, _, hb, _, hmp, hgm, _⟩ := cycle_next_char h
    have h1 := hinv.1
    have h2 := hinv.2.1
    have h3 := hinv.2.2
    refine ⟨⟨?_, ?_, ?_⟩, ?_⟩
    · rw [hmp, hb, h1]; simp
    · rw [hmp]; omega
    · rw [hgm, hb, h3]
    · rw [hb]; simp
  · intro h
    obtain ⟨w, _, hb, _⟩ := cycle_brk_char h
    rw [hb]; simp
  · intro h
    rcases cycle_ret_char h with ⟨hb, _⟩ | ⟨w, _, hb, _⟩
    · exact Or.inl (by rw [hb])
    · exact Or.inr (by rw [hb]; simp)

/-- Witness for C9 at a concrete input: the demo cycle in which both sides
move. -/
theorem c9_loop_invariant_witness :
    (inv demo_lib (init_state demo_lib "W" "B")
      ∧ cycle demo_lib good_white good_black (init_state demo_lib "W" "B") =
          .ok (.next demo_next_state))
    ∧ (turn_white (init_state demo_lib "W" "B").board = true
      ∧ inv demo_lib demo_next_state
      ∧ demo_next_state.board.length =
          (init_state demo_lib "W" "B").board.length + 2) := by
  have hc := c9_loop_invariant demo_lib good_white good_black "W" "B"
      (init_state demo_lib "W" "B") demo_next_state
  exact ⟨⟨hc.1, rfl⟩, hc.2.1 hc.1, (hc.2.2.1 hc.1 rfl).1, (hc.2.2.1 hc.1 rfl).2⟩

/-- Counterexample to C9 as stated: a reachable loop iteration (the loop
condition and the loop-head invariant both hold) in which White resigns,
so the iteration applies zero moves, not one or two. -/
theorem c9_loop_invariant_counterexample :
    cycle demo_lib fail_eng fail_eng (init_state demo_lib "W" "B") =
        .ok (.ret demo_resign_state)
    ∧ demo_lib.is_game_over (init_state demo_lib "W" "B").board = false
    ∧ (init_state demo_lib "W" "B").moves_played < MAX_MOVES
    ∧ inv demo_lib (init_state demo_lib "W" "B")
    ∧ demo_resign_state.board.length =
        (init_state demo_lib "W" "B").board.length :=
  ⟨rfl, rfl, by decide, ⟨rfl, rfl, rfl⟩, rfl⟩

end ZeroSecondChess
